import Mathlib

/-!
# Verification of the BST traversal-cursor library (src/lib/BST/BST.hpp)

Shallow embedding of the binary-search-tree container of `src/lib/BST/BST.hpp`.

Modelling choices, mapped to the source:

* `BTree α` is the tree of data-bearing nodes. `BTree.leaf` stands for a null
  child pointer (`nullptr`); `BTree.node l x r` is a `Node<T>` with value `x`,
  left child `l` and right child `r`.
* The permanently allocated sentinel (`root_`, created zero-initialised in the
  default constructor) is not part of `BTree`. Its `left_` is the data root
  (the whole `BTree`), its `right_` and `parent_` are always null.
* A cursor (`Iterator<IsConst, Pick>`) stores one node pointer `it_`.  We
  model the pointer as `Pos`:
    - `Pos.nil`  = the null pointer,
    - `Pos.sent` = the sentinel `root_` (every order's `end()`),
    - `Pos.node rp` = the data node reached from the data root by following
      the directions of `rp.reverse` (so `rp` is stored innermost-first: its
      head is the edge from the node to its parent; `rp = []` is the data
      root).  `it_ == it_->parent_->right_` is `rp.head = Dir.R`,
      `it_->parent_` is `rp.tail` (or the sentinel when `rp = []`).
* The comparator `Compare` (default `std::less<T>`) is modelled as the
  strict order `<` of a `LinearOrder`.
* Where the C++ would dereference a null pointer (undefined behaviour) the
  model returns `Pos.nil`; no theorem below relies on those branches.
-/

inductive Dir : Type
  | L
  | R
  deriving DecidableEq

/-- A binary tree of data-bearing nodes; `leaf` is a null child pointer. -/
inductive BTree (α : Type) : Type
  | leaf
  | node (l : BTree α) (x : α) (r : BTree α)
  deriving DecidableEq

/-- A cursor value: null pointer, the sentinel `root_`, or a data node
addressed by its innermost-first direction path from the data root. -/
inductive Pos : Type
  | nil
  | sent
  | node (rp : List Dir)
  deriving DecidableEq

namespace BSTModel

open Dir BTree

variable {α : Type}

/-- Follow a root-first direction path; walking into a null pointer stays
`leaf` (such a path addresses no node). -/
def subAt : BTree α → List Dir → BTree α
  | t, [] => t
  | BTree.leaf, _ :: _ => BTree.leaf
  | BTree.node l _ _, Dir.L :: p => subAt l p
  | BTree.node _ _ r, Dir.R :: p => subAt r p

/-- The subtree hanging at cursor path `rp` (innermost-first). -/
def focusAt (t : BTree α) (rp : List Dir) : BTree α :=
  subAt t rp.reverse

/-- Number of data-bearing nodes (the `size_` of a consistent tree). -/
def countNodes : BTree α → Nat
  | BTree.leaf => 0
  | BTree.node l _ r => countNodes l + countNodes r + 1

/-- In-order (left, root, right) value sequence of a tree. -/
def inVals : BTree α → List α
  | BTree.leaf => []
  | BTree.node l x r => inVals l ++ x :: inVals r

/-- Length of the `while (left_ != nullptr)` descent from the root of a
subtree (`Leftmost` of BST.hpp, lines 392-413). -/
def leftDepth : BTree α → Nat
  | BTree.leaf => 0
  | BTree.node BTree.leaf _ _ => 0
  | BTree.node (BTree.node ll lx lr) _ _ => leftDepth (BTree.node ll lx lr) + 1

/-- Length of the `while (right_ != nullptr)` descent (`Rightmost`). -/
def rightDepth : BTree α → Nat
  | BTree.leaf => 0
  | BTree.node _ _ BTree.leaf => 0
  | BTree.node _ _ (BTree.node rl rx rr) => rightDepth (BTree.node rl rx rr) + 1

/-- `end(order)` is `Iterator(root_)`, the sentinel, for every order
(BST.hpp lines 543, 563, 583). -/
def endPos : Pos := Pos.sent

/-- `begin(Inorder)` = `Iterator(Leftmost())` (lines 538-540, 392-401):
the sentinel itself when `root_->left_` is null, else the leftmost node. -/
def beginIn (t : BTree α) : Pos :=
  match t with
  | BTree.leaf => Pos.sent
  | BTree.node _ _ _ => Pos.node (List.replicate (leftDepth t) Dir.L)

/-- `begin(Preorder)` = `Iterator(root_->left_)` (lines 558-560): the data
root, which is the null pointer on an empty tree. -/
def beginPre (t : BTree α) : Pos :=
  match t with
  | BTree.leaf => Pos.nil
  | BTree.node _ _ _ => Pos.node []

/-- `begin(Postorder)` = `Iterator(Leftmost(root_))` (lines 578-580,
408-413): the left-only descent starting at the sentinel. -/
def beginPost (t : BTree α) : Pos :=
  match t with
  | BTree.leaf => Pos.sent
  | BTree.node _ _ _ => Pos.node (List.replicate (leftDepth t) Dir.L)

/-- Ascent loop of `Add(Inorder)` (lines 178-185): climb while the current
node is its parent's right child (with the early `break` once the data root
is reached), then step to the parent.  At the data root (`rp = []`) the test
`it_ == it_->parent_->right_` compares against the sentinel's null `right_`,
so the loop exits and the final step lands on the sentinel. -/
def addUp : List Dir → Pos
  | [] => Pos.sent
  | Dir.L :: rp => Pos.node rp
  | Dir.R :: rp => if rp = [] then Pos.sent else addUp rp

/-- `Iterator::Add(Inorder)` (lines 172-188).  With a right child: descend
to its leftmost node; otherwise run the ascent loop.  At the sentinel both
`right_` and `parent_` are null, so the cursor does not move. -/
def addIn (t : BTree α) : Pos → Pos
  | Pos.node rp =>
    match focusAt t rp with
    | BTree.node _ _ (BTree.node rl rx rr) =>
      Pos.node (List.replicate (leftDepth (BTree.node rl rx rr)) Dir.L ++ Dir.R :: rp)
    | BTree.node _ _ BTree.leaf => addUp rp
    | BTree.leaf => Pos.nil
  | p => p

/-- Ascent loop of `Subtract(Inorder)` (lines 233-240): climb while the
current node is its parent's left child, with the `break` at the data root.
Starting at the data root itself the loop moves to the sentinel and then
evaluates `it_->parent_->parent_` through the sentinel's null parent —
undefined behaviour, modelled as `Pos.nil`. -/
def subUp : List Dir → Pos
  | [] => Pos.nil
  | Dir.L :: rp => if rp = [] then Pos.sent else subUp rp
  | Dir.R :: rp => Pos.node rp

/-- `Iterator::Subtract(Inorder)` (lines 227-243).  At the sentinel the
sentinel's `left_` is the data root, so `--end()` descends to the rightmost
node (or stays at the sentinel on an empty tree, since then `left_` and
`parent_` are both null). -/
def subIn (t : BTree α) : Pos → Pos
  | Pos.sent =>
    match t with
    | BTree.leaf => Pos.sent
    | BTree.node _ _ _ => Pos.node (List.replicate (rightDepth t) Dir.R)
  | Pos.node rp =>
    match focusAt t rp with
    | BTree.node (BTree.node ll lx lr) _ _ =>
      Pos.node (List.replicate (rightDepth (BTree.node ll lx lr)) Dir.R ++ Dir.L :: rp)
    | BTree.node BTree.leaf _ _ => subUp rp
    | BTree.leaf => Pos.nil
  | Pos.nil => Pos.nil

/-- Ascent loop of `Add(Preorder)` (lines 195-199): climb while the parent
exists and the current node is the parent's right child or the parent has no
right child.  At the data root the parent is the sentinel whose `right_` is
null, so the loop always climbs to the sentinel and the function returns it.
On exiting at a left child whose parent has a right child, the two trailing
`if`s move to the parent and then into its right child. -/
def preUp (t : BTree α) : List Dir → Pos
  | [] => Pos.sent
  | Dir.R :: rp => preUp t rp
  | Dir.L :: rp =>
    match focusAt t rp with
    | BTree.node _ _ BTree.leaf => preUp t rp
    | BTree.node _ _ (BTree.node _ _ _) => Pos.node (Dir.R :: rp)
    | BTree.leaf => Pos.nil

/-- `Iterator::Add(Preorder)` (lines 191-208).  With a left child: go there;
otherwise run the ascent loop.  At the sentinel, `left_` is the data root,
so `++end()` re-enters the tree at the data root when the tree is not
empty. -/
def addPre (t : BTree α) : Pos → Pos
  | Pos.node rp =>
    match focusAt t rp with
    | BTree.node (BTree.node _ _ _) _ _ => Pos.node (Dir.L :: rp)
    | BTree.node BTree.leaf _ _ => preUp t rp
    | BTree.leaf => Pos.nil
  | Pos.sent =>
    match t with
    | BTree.leaf => Pos.sent
    | BTree.node _ _ _ => Pos.node []
  | Pos.nil => Pos.nil

/-- `Iterator::Subtract(Preorder)` (lines 246-266).  At the sentinel (the
only node with a null parent): enter at `left_` and descend rightmost — on
an empty tree this dereferences the null data root (modelled `Pos.nil`).
At a node that is its parent's left child (including the data root, which is
the sentinel's left child): step to the parent.  At a right child: step to
the parent, then descend to the rightmost node of the parent's left subtree
if there is one. -/
def subPre (t : BTree α) : Pos → Pos
  | Pos.sent =>
    match t with
    | BTree.leaf => Pos.nil
    | BTree.node _ _ _ => Pos.node (List.replicate (rightDepth t) Dir.R)
  | Pos.node rp =>
    match rp with
    | [] => Pos.sent
    | Dir.L :: rq => Pos.node rq
    | Dir.R :: rq =>
      match focusAt t rq with
      | BTree.node (BTree.node ll lx lr) _ _ =>
        Pos.node (List.replicate (rightDepth (BTree.node ll lx lr)) Dir.R ++ Dir.L :: rq)
      | BTree.node BTree.leaf _ _ => Pos.node rq
      | BTree.leaf => Pos.nil
  | Pos.nil => Pos.nil

/-- `Iterator::Add(Postorder)` (lines 211-224).  A left child (including the
data root, which is the sentinel's left child) moves to its parent and, if
the parent has a right child, descends to that subtree's leftmost node; a
right child moves to the parent.  At the sentinel `it_->parent_->left_`
dereferences the null parent (modelled `Pos.nil`). -/
def addPost (t : BTree α) : Pos → Pos
  | Pos.node rp =>
    match rp with
    | [] => Pos.sent
    | Dir.L :: rq =>
      match focusAt t rq with
      | BTree.node _ _ (BTree.node rl rx rr) =>
        Pos.node (List.replicate (leftDepth (BTree.node rl rx rr)) Dir.L ++ Dir.R :: rq)
      | BTree.node _ _ BTree.leaf => Pos.node rq
      | BTree.leaf => Pos.nil
    | Dir.R :: rq => Pos.node rq
  | Pos.sent => Pos.nil
  | Pos.nil => Pos.nil

/-- Ascent loop of `Subtract(Postorder)` (lines 277-285): climb while the
parent has no right child or the current node is the parent's left child;
reaching the sentinel returns it.  For data nodes the condition is simply
"current is a left child" (a right child makes both disjuncts false), and at
the data root the sentinel's null `right_` makes the loop climb once more
and return the sentinel.  On exit at a right child: move to the parent, then
into the parent's left child if there is one. -/
def postSubUp (t : BTree α) : List Dir → Pos
  | [] => Pos.sent
  | Dir.L :: rq => postSubUp t rq
  | Dir.R :: rq =>
    match focusAt t rq with
    | BTree.node (BTree.node _ _ _) _ _ => Pos.node (Dir.L :: rq)
    | BTree.node BTree.leaf _ _ => Pos.node rq
    | BTree.leaf => Pos.nil

/-- `Iterator::Subtract(Postorder)` (lines 269-291).  At the sentinel: move
to `left_`, the data root (the null pointer on an empty tree).  Otherwise
prefer the right child, then the left child, then the ascent loop. -/
def subPost (t : BTree α) : Pos → Pos
  | Pos.sent =>
    match t with
    | BTree.leaf => Pos.nil
    | BTree.node _ _ _ => Pos.node []
  | Pos.node rp =>
    match focusAt t rp with
    | BTree.node _ _ (BTree.node _ _ _) => Pos.node (Dir.R :: rp)
    | BTree.node (BTree.node _ _ _) _ BTree.leaf => Pos.node (Dir.L :: rp)
    | BTree.node BTree.leaf _ BTree.leaf => postSubUp t rp
    | BTree.leaf => Pos.nil
  | Pos.nil => Pos.nil

/-- Iterate a cursor-step function `n` times (`++it` run `n` times). -/
def stepNf (f : BTree α → Pos → Pos) (t : BTree α) : Nat → Pos → Pos
  | 0, p => p
  | n + 1, p => stepNf f t n (f t p)

/-- The value sequence of `for (it = p; it != end; ++it) out(*it)` with a
fuel bound: collect the current node's value and step, stopping at the
sentinel, a null cursor, or an invalid path. -/
def visit (f : BTree α → Pos → Pos) (t : BTree α) : Nat → Pos → List α
  | 0, _ => []
  | n + 1, p =>
    match p with
    | Pos.node rp =>
      match focusAt t rp with
      | BTree.node _ x _ => x :: visit f t n (f t p)
      | BTree.leaf => []
    | _ => []

/-- `BST::find` (lines 809-816): scan with `++it` from a start cursor while
the cursor differs from `end()` and the value differs, with a fuel bound. -/
def findLoop [DecidableEq α] (f : BTree α → Pos → Pos) (t : BTree α) (v : α) :
    Nat → Pos → Pos
  | 0, p => p
  | n + 1, p =>
    match p with
    | Pos.node rp =>
      match focusAt t rp with
      | BTree.node _ x _ => if x = v then p else findLoop f t v n (f t p)
      | BTree.leaf => p
    | q => q

/-- `BST::insert` (lines 657-683): walk from the data root, descending left
exactly when `comp_(value, current->data_)` holds, and attach a fresh leaf
node. -/
def insertT [LinearOrder α] : BTree α → α → BTree α
  | BTree.leaf, v => BTree.node BTree.leaf v BTree.leaf
  | BTree.node l x r, v =>
    if v < x then BTree.node (insertT l v) x r else BTree.node l x (insertT r v)

/-- The root-first path at which `insert` attaches the new node (the same
comparisons as the insertion walk). -/
def insertPath [LinearOrder α] : BTree α → α → List Dir
  | BTree.leaf, _ => []
  | BTree.node l x r, v =>
    if v < x then Dir.L :: insertPath l v else Dir.R :: insertPath r v

/-- The full result of `insert`: the new tree and, as in the source's
`return {Iterator<false, Pick>(newNode), true};`, the cursor of the new node
and the literally-true success flag. -/
def insertPair [LinearOrder α] (t : BTree α) (v : α) : BTree α × Pos × Bool :=
  (insertT t v, Pos.node (insertPath t v).reverse, true)

/-- A tree built by inserting a sequence of values into an empty tree. -/
def buildBST [LinearOrder α] (vs : List α) : BTree α :=
  vs.foldl insertT BTree.leaf

/-- `temp->left_ = node->left_` after `temp = Leftmost(node->right_)`
(lines 455, 463-464): graft a subtree as the left child of the leftmost
node of another subtree (that node's `left_` is null). -/
def attachLeft : BTree α → BTree α → BTree α
  | BTree.leaf, _ => BTree.leaf
  | BTree.node BTree.leaf x r, a => BTree.node a x r
  | BTree.node (BTree.node ll lx lr) x r, a =>
    BTree.node (attachLeft (BTree.node ll lx lr) a) x r

/-- The subtree that replaces a deleted node in its parent slot, by child
count as in `DeleteNode` (lines 431-467): nothing / the only child / the
right subtree with the left subtree re-attached under its leftmost node. -/
def delRoot : BTree α → BTree α
  | BTree.leaf => BTree.leaf
  | BTree.node BTree.leaf _ BTree.leaf => BTree.leaf
  | BTree.node BTree.leaf _ (BTree.node rl rx rr) => BTree.node rl rx rr
  | BTree.node (BTree.node ll lx lr) _ BTree.leaf => BTree.node ll lx lr
  | BTree.node (BTree.node ll lx lr) _ (BTree.node rl rx rr) =>
    attachLeft (BTree.node rl rx rr) (BTree.node ll lx lr)

/-- Overwrite the child pointer at a root-first path (the
`node->parent_->left_/right_ = ...` stores of `DeleteNode`; the data root's
slot is the sentinel's `left_`). -/
def replaceAt : BTree α → List Dir → BTree α → BTree α
  | _, [], s => s
  | BTree.leaf, _ :: _, _ => BTree.leaf
  | BTree.node l x r, Dir.L :: p, s => BTree.node (replaceAt l p s) x r
  | BTree.node l x r, Dir.R :: p, s => BTree.node l x (replaceAt r p s)

/-- `BST::DeleteNode` on the node addressed by a root-first path. -/
def deleteAt (t : BTree α) (p : List Dir) : BTree α :=
  replaceAt t p (delRoot (subAt t p))

/-- `BST::erase(Iterator)` (lines 707-717): return the cursor unchanged at
`end()`; otherwise advance the cursor first (on the still-unmodified tree),
then delete the node and decrement `size_`. -/
def eraseIt (f : BTree α → Pos → Pos) (t : BTree α) (sz : Nat) (p : Pos) :
    BTree α × Nat × Pos :=
  if p = Pos.sent then (t, sz, p)
  else
    match p with
    | Pos.node rp => (deleteAt t rp.reverse, sz - 1, f t p)
    | q => (t, sz, q)

/-- `BST::swap` (lines 646-650): the two `root_` pointers are exchanged but
the `size_` members are not. -/
def swapBST (a b : BTree α × Nat) : (BTree α × Nat) × (BTree α × Nat) :=
  ((b.1, a.2), (a.1, b.2))

/-- `BST::insert`'s effect on the (tree, `size_`) state: attach the node and
increment the counter (line 681). -/
def insertState [LinearOrder α] (s : BTree α × Nat) (v : α) : BTree α × Nat :=
  (insertT s.1 v, s.2 + 1)

/-- The ordering invariant as stated in the specification: at every node,
all values of the left subtree are `≤` the node's value and all values of
the right subtree are `≥` it. -/
def invariant [LinearOrder α] : BTree α → Bool
  | BTree.leaf => true
  | BTree.node l x r =>
    ((inVals l).all fun y => decide (y ≤ x)) &&
      (((inVals r).all fun y => decide (x ≤ y)) && (invariant l && invariant r))

/-! ## Basic path lemmas -/

lemma subAt_leaf (p : List Dir) : subAt (BTree.leaf : BTree α) p = BTree.leaf := by
  cases p <;> rfl

lemma subAt_nil (t : BTree α) : subAt t [] = t := by
  cases t <;> rfl

lemma subAt_append (t : BTree α) (p q : List Dir) :
    subAt t (p ++ q) = subAt (subAt t p) q := by
  induction p generalizing t with
  | nil => simp [subAt_nil]
  | cons d p ih =>
    cases t with
    | leaf => simp [subAt, subAt_leaf]
    | node l x r => cases d <;> simp [subAt, ih]

lemma focusAt_nil (t : BTree α) : focusAt t [] = t := by
  simp [focusAt, subAt_nil]

lemma focusAt_cons (t : BTree α) (d : Dir) (rp : List Dir) :
    focusAt t (d :: rp) = subAt (focusAt t rp) [d] := by
  simp [focusAt, List.reverse_cons, subAt_append]

lemma focusAt_append (t : BTree α) (a b : List Dir) :
    focusAt t (a ++ b) = subAt (focusAt t b) a.reverse := by
  simp [focusAt, List.reverse_append, subAt_append]

lemma addUp_R (rp : List Dir) : addUp (Dir.R :: rp) = addUp rp := by
  cases rp <;> simp [addUp]

/-! ## The in-order cursor walks the in-order value sequence

`entry s rp` is the cursor position at which the in-order forward walk
enters the subtree `s` hanging at context path `rp`: its leftmost node, or
— when the subtree is empty — directly the position that the walk reaches
after leaving the context upward (`addUp rp`). -/

def entry : BTree α → List Dir → Pos
  | BTree.leaf, rp => addUp rp
  | BTree.node l x r, rp =>
    Pos.node (List.replicate (leftDepth (BTree.node l x r)) Dir.L ++ rp)

lemma entry_node (l : BTree α) (x : α) (r : BTree α) (rp : List Dir) :
    entry (BTree.node l x r) rp = entry l (Dir.L :: rp) := by
  cases l with
  | leaf => simp [entry, leftDepth, addUp]
  | node ll lx lr =>
    simp [entry, leftDepth, List.replicate_succ', List.append_assoc]

lemma addIn_node (t : BTree α) (rp : List Dir) (l : BTree α) (x : α)
    (r : BTree α) (h : focusAt t rp = BTree.node l x r) :
    addIn t (Pos.node rp) = entry r (Dir.R :: rp) := by
  cases r with
  | leaf => simp [addIn, h, entry, addUp_R]
  | node rl rx rr => simp [addIn, h, entry]

lemma inorder_seg (t : BTree α) (s : BTree α) :
    ∀ (rp : List Dir) (k : Nat), focusAt t rp = s →
      visit addIn t (countNodes s + k) (entry s rp)
          = inVals s ++ visit addIn t k (addUp rp)
        ∧ stepNf addIn t (countNodes s + k) (entry s rp)
          = stepNf addIn t k (addUp rp) := by
  induction s with
  | leaf =>
    intro rp k h
    simp [countNodes, inVals, entry]
  | node l x r ihl ihr =>
    intro rp k h
    have hl : focusAt t (Dir.L :: rp) = l := by
      rw [focusAt_cons, h]; simp [subAt, subAt_nil]
    have hr : focusAt t (Dir.R :: rp) = r := by
      rw [focusAt_cons, h]; simp [subAt, subAt_nil]
    have hmid1 : visit addIn t (countNodes r + k + 1) (Pos.node rp)
        = x :: (inVals r ++ visit addIn t k (addUp rp)) := by
      rw [visit]
      simp only [h]
      rw [addIn_node t rp l x r h, (ihr (Dir.R :: rp) k hr).1, addUp_R]
    have hmid2 : stepNf addIn t (countNodes r + k + 1) (Pos.node rp)
        = stepNf addIn t k (addUp rp) := by
      rw [stepNf]
      rw [addIn_node t rp l x r h, (ihr (Dir.R :: rp) k hr).2, addUp_R]
    have harith : countNodes (BTree.node l x r) + k
        = countNodes l + (countNodes r + k + 1) := by
      simp [countNodes]; omega
    rw [harith, entry_node]
    constructor
    · rw [(ihl (Dir.L :: rp) (countNodes r + k + 1) hl).1]
      have : addUp (Dir.L :: rp) = Pos.node rp := rfl
      rw [this, hmid1]
      simp [inVals, List.append_assoc]
    · rw [(ihl (Dir.L :: rp) (countNodes r + k + 1) hl).2]
      have : addUp (Dir.L :: rp) = Pos.node rp := rfl
      rw [this, hmid2]

lemma beginIn_eq_entry (t : BTree α) : beginIn t = entry t [] := by
  cases t <;> simp [beginIn, entry, addUp]

/-- Stepping the in-order cursor from `begin()` visits exactly the in-order
value sequence and lands on the sentinel after `countNodes t` steps. -/
theorem inorder_iteration (t : BTree α) :
    visit addIn t (countNodes t) (beginIn t) = inVals t
      ∧ stepNf addIn t (countNodes t) (beginIn t) = Pos.sent := by
  have h := inorder_seg t t [] 0 (focusAt_nil t)
  rw [beginIn_eq_entry]
  constructor
  · have h1 := h.1
    simpa [visit, addUp] using h1
  · have h2 := h.2
    simpa [stepNf, addUp] using h2

/-! ## Round trips of the in-order cursor -/

lemma leftmost_sub (s : BTree α) (hs : s ≠ BTree.leaf) :
    ∃ x r, subAt s (List.replicate (leftDepth s) Dir.L) = BTree.node BTree.leaf x r := by
  induction s with
  | leaf => exact absurd rfl hs
  | node l x r ihl ihr =>
    cases l with
    | leaf => exact ⟨x, r, by simp [leftDepth, subAt_nil]⟩
    | node ll lx lr =>
      obtain ⟨y, r2, hy⟩ := ihl (by simp)
      exact ⟨y, r2, by simpa [leftDepth, List.replicate_succ, subAt] using hy⟩

lemma rightmost_sub (s : BTree α) (hs : s ≠ BTree.leaf) :
    ∃ l x, subAt s (List.replicate (rightDepth s) Dir.R) = BTree.node l x BTree.leaf := by
  induction s with
  | leaf => exact absurd rfl hs
  | node l x r ihl ihr =>
    cases r with
    | leaf => exact ⟨l, x, by simp [rightDepth, subAt_nil]⟩
    | node rl rx rr =>
      obtain ⟨l2, y, hy⟩ := ihr (by simp)
      exact ⟨l2, y, by simpa [rightDepth, List.replicate_succ, subAt] using hy⟩

lemma leftDepth_eq (k : Nat) :
    ∀ (s : BTree α) (x : α) (r : BTree α),
      subAt s (List.replicate k Dir.L) = BTree.node BTree.leaf x r → leftDepth s = k := by
  induction k with
  | zero =>
    intro s x r h
    rw [List.replicate_zero, subAt_nil] at h
    rw [h]; rfl
  | succ k ih =>
    intro s x r h
    rw [List.replicate_succ] at h
    cases s with
    | leaf => rw [subAt_leaf] at h; exact absurd h (by simp)
    | node l y r0 =>
      have hl : subAt l (List.replicate k Dir.L) = BTree.node BTree.leaf x r := h
      have : leftDepth l = k := ih l x r hl
      cases l with
      | leaf => rw [subAt_leaf] at hl; exact absurd hl (by simp)
      | node ll lx lr => rw [leftDepth, this]

lemma rightDepth_eq (k : Nat) :
    ∀ (s : BTree α) (l : BTree α) (x : α),
      subAt s (List.replicate k Dir.R) = BTree.node l x BTree.leaf → rightDepth s = k := by
  induction k with
  | zero =>
    intro s l x h
    rw [List.replicate_zero, subAt_nil] at h
    rw [h]; rfl
  | succ k ih =>
    intro s l x h
    rw [List.replicate_succ] at h
    cases s with
    | leaf => rw [subAt_leaf] at h; exact absurd h (by simp)
    | node l0 y r0 =>
      have hr : subAt r0 (List.replicate k Dir.R) = BTree.node l x BTree.leaf := h
      have : rightDepth r0 = k := ih r0 l x hr
      cases r0 with
      | leaf => rw [subAt_leaf] at hr; exact absurd hr (by simp)
      | node rl rx rr => rw [rightDepth, this]

lemma subUp_repL (k : Nat) (rp : List Dir) :
    subUp (List.replicate k Dir.L ++ Dir.R :: rp) = Pos.node rp := by
  induction k with
  | zero => simp [subUp]
  | succ k ih => simp [List.replicate_succ, subUp, ih]

lemma addUp_repR (k : Nat) (rp : List Dir) :
    addUp (List.replicate k Dir.R ++ Dir.L :: rp) = Pos.node rp := by
  induction k with
  | zero => simp [addUp]
  | succ k ih => simp [List.replicate_succ, addUp, ih]

lemma addUp_shape (rp : List Dir) :
    (∃ k, rp = List.replicate k Dir.R ∧ addUp rp = Pos.sent)
      ∨ ∃ k rq, rp = List.replicate k Dir.R ++ Dir.L :: rq
          ∧ addUp rp = Pos.node rq := by
  induction rp with
  | nil => exact Or.inl ⟨0, rfl, rfl⟩
  | cons d rq ih =>
    cases d with
    | L => exact Or.inr ⟨0, rq, rfl, rfl⟩
    | R =>
      rcases ih with ⟨k, hk, he⟩ | ⟨k, rq2, hk, he⟩
      · exact Or.inl ⟨k + 1, by rw [hk, List.replicate_succ],
          by rw [addUp_R, he]⟩
      · exact Or.inr ⟨k + 1, rq2, by rw [hk, List.replicate_succ]; rfl,
          by rw [addUp_R, he]⟩

lemma subUp_repAllL (k : Nat) : subUp (List.replicate (k + 1) Dir.L) = Pos.sent := by
  induction k with
  | zero => rfl
  | succ k ih => simpa [List.replicate_succ, subUp] using ih

lemma subUp_shape (rp : List Dir) :
    rp = []
      ∨ (∃ k, rp = List.replicate (k + 1) Dir.L ∧ subUp rp = Pos.sent)
      ∨ ∃ k rq, rp = List.replicate k Dir.L ++ Dir.R :: rq
          ∧ subUp rp = Pos.node rq := by
  induction rp with
  | nil => exact Or.inl rfl
  | cons d rq ih =>
    cases d with
    | R => exact Or.inr (Or.inr ⟨0, rq, rfl, rfl⟩)
    | L =>
      rcases ih with h | ⟨k, hk, he⟩ | ⟨k, rq2, hk, he⟩
      · exact Or.inr (Or.inl ⟨0, by rw [h]; rfl, by rw [h]; rfl⟩)
      · exact Or.inr (Or.inl ⟨k + 1, by rw [hk]; rfl,
          by rw [hk]; exact subUp_repAllL (k + 1)⟩)
      · exact Or.inr (Or.inr ⟨k + 1, rq2, by rw [hk]; rfl,
          by rw [hk]; exact subUp_repL (k + 1) rq2⟩)

/-- Stepping the in-order cursor forward then backward from any
dereferenceable node returns to that node. -/
lemma inorder_fwd_roundtrip (t : BTree α) (rp : List Dir) (l : BTree α)
    (x : α) (r : BTree α) (h : focusAt t rp = BTree.node l x r) :
    subIn t (addIn t (Pos.node rp)) = Pos.node rp := by
  cases r with
  | node rl rx rr =>
    have hfr : focusAt t (Dir.R :: rp) = BTree.node rl rx rr := by
      rw [focusAt_cons, h]; simp [subAt, subAt_nil]
    obtain ⟨y, r2, hy⟩ := leftmost_sub (BTree.node rl rx rr) (by simp)
    have hfoc : focusAt t
        (List.replicate (leftDepth (BTree.node rl rx rr)) Dir.L ++ Dir.R :: rp)
        = BTree.node BTree.leaf y r2 := by
      rw [focusAt_append, hfr, List.reverse_replicate]
      exact hy
    simp [addIn, h, subIn, hfoc, subUp_repL]
  | leaf =>
    have ha : addIn t (Pos.node rp) = addUp rp := by simp [addIn, h]
    rw [ha]
    rcases addUp_shape rp with ⟨k, hk, he⟩ | ⟨k, rq, hk, he⟩
    · rw [he]
      have hsub : subAt t (List.replicate k Dir.R) = BTree.node l x BTree.leaf := by
        have hrev : rp.reverse = List.replicate k Dir.R := by
          rw [hk, List.reverse_replicate]
        rw [focusAt, hrev] at h
        exact h
      have hrd : rightDepth t = k := rightDepth_eq k t l x hsub
      cases t with
      | leaf => rw [subAt_leaf] at hsub; exact absurd hsub (by simp)
      | node tl ty tr => simp [subIn, hrd, hk]
    · rw [he]
      have hL : subAt (focusAt t (Dir.L :: rq)) (List.replicate k Dir.R)
          = BTree.node l x BTree.leaf := by
        rw [← List.reverse_replicate k Dir.R, ← focusAt_append, ← hk]
        exact h
      have hne : focusAt t (Dir.L :: rq) ≠ BTree.leaf := by
        intro hq; rw [hq, subAt_leaf] at hL; exact absurd hL (by simp)
      cases hfq : focusAt t rq with
      | leaf =>
        rw [focusAt_cons, hfq, subAt_leaf] at hne
        exact absurd rfl hne
      | node l2 x2 r2 =>
        have hl2 : focusAt t (Dir.L :: rq) = l2 := by
          rw [focusAt_cons, hfq]; simp [subAt, subAt_nil]
        rw [hl2] at hL hne
        cases l2 with
        | leaf => exact absurd rfl hne
        | node a b c =>
          have hrd : rightDepth (BTree.node a b c) = k :=
            rightDepth_eq k (BTree.node a b c) l x hL
          simp [subIn, hfq, hrd, hk]

/-- Stepping the in-order cursor backward then forward from any
dereferenceable node other than `begin(Inorder)` returns to that node. -/
lemma inorder_bwd_roundtrip (t : BTree α) (rp : List Dir) (l : BTree α)
    (x : α) (r : BTree α) (h : focusAt t rp = BTree.node l x r)
    (hb : Pos.node rp ≠ beginIn t) :
    addIn t (subIn t (Pos.node rp)) = Pos.node rp := by
  cases l with
  | node ll lx lr =>
    have hfl : focusAt t (Dir.L :: rp) = BTree.node ll lx lr := by
      rw [focusAt_cons, h]; simp [subAt, subAt_nil]
    obtain ⟨l3, y, hy⟩ := rightmost_sub (BTree.node ll lx lr) (by simp)
    have hfoc : focusAt t
        (List.replicate (rightDepth (BTree.node ll lx lr)) Dir.R ++ Dir.L :: rp)
        = BTree.node l3 y BTree.leaf := by
      rw [focusAt_append, hfl, List.reverse_replicate]
      exact hy
    simp [subIn, h, addIn, hfoc, addUp_repR]
  | leaf =>
    have hs : subIn t (Pos.node rp) = subUp rp := by simp [subIn, h]
    rw [hs]
    rcases subUp_shape rp with hnil | ⟨k, hk, he⟩ | ⟨k, rq, hk, he⟩
    · exfalso
      apply hb
      rw [hnil] at h ⊢
      rw [focusAt_nil] at h
      rw [h]
      simp [beginIn, leftDepth]
    · exfalso
      apply hb
      have hsub : subAt t (List.replicate (k + 1) Dir.L)
          = BTree.node BTree.leaf x r := by
        have hrev : rp.reverse = List.replicate (k + 1) Dir.L := by
          rw [hk, List.reverse_replicate]
        rw [focusAt, hrev] at h
        exact h
      have hld : leftDepth t = k + 1 := leftDepth_eq (k + 1) t x r hsub
      cases t with
      | leaf => rw [subAt_leaf] at hsub; exact absurd hsub (by simp)
      | node tl ty tr => simp [beginIn, hld, hk]
    · rw [he]
      have hR : subAt (focusAt t (Dir.R :: rq)) (List.replicate k Dir.L)
          = BTree.node BTree.leaf x r := by
        rw [← List.reverse_replicate k Dir.L, ← focusAt_append, ← hk]
        exact h
      have hne : focusAt t (Dir.R :: rq) ≠ BTree.leaf := by
        intro hq; rw [hq, subAt_leaf] at hR; exact absurd hR (by simp)
      cases hfq : focusAt t rq with
      | leaf =>
        rw [focusAt_cons, hfq, subAt_leaf] at hne
        exact absurd rfl hne
      | node l2 x2 r2 =>
        have hr2 : focusAt t (Dir.R :: rq) = r2 := by
          rw [focusAt_cons, hfq]; simp [subAt, subAt_nil]
        rw [hr2] at hR hne
        cases r2 with
        | leaf => exact absurd rfl hne
        | node a b c =>
          have hld : leftDepth (BTree.node a b c) = k :=
            leftDepth_eq k (BTree.node a b c) x r hR
          simp [addIn, hfq, hld, hk]

/-! ## Insert: multiset, invariant, sortedness, size -/

lemma insertT_perm [LinearOrder α] (t : BTree α) (v : α) :
    List.Perm (inVals (insertT t v)) (v :: inVals t) := by
  induction t with
  | leaf => simp [insertT, inVals]
  | node l x r ihl ihr =>
    by_cases hv : v < x
    · simp only [insertT, if_pos hv, inVals]
      exact ihl.append_right _
    · simp only [insertT, if_neg hv, inVals]
      have h1 : List.Perm (inVals l ++ x :: inVals (insertT r v))
          (inVals l ++ x :: v :: inVals r) :=
        List.Perm.append_left _ (ihr.cons x)
      have h2 : List.Perm (inVals l ++ x :: v :: inVals r)
          (inVals l ++ v :: x :: inVals r) :=
        List.Perm.append_left _ (List.Perm.swap v x _)
      have h3 : List.Perm (inVals l ++ v :: x :: inVals r)
          (v :: (inVals l ++ x :: inVals r)) := List.perm_middle
      exact (h1.trans h2).trans h3

lemma build_fold_perm [LinearOrder α] (vs : List α) :
    ∀ t : BTree α, List.Perm (inVals (vs.foldl insertT t)) (vs ++ inVals t) := by
  induction vs with
  | nil => intro t; simp
  | cons v vs ih =>
    intro t
    simp only [List.foldl_cons, List.cons_append]
    have h1 := ih (insertT t v)
    have h2 : List.Perm (vs ++ inVals (insertT t v)) (vs ++ v :: inVals t) :=
      List.Perm.append_left _ (insertT_perm t v)
    have h3 : List.Perm (vs ++ v :: inVals t) (v :: (vs ++ inVals t)) :=
      List.perm_middle
    exact (h1.trans h2).trans h3

lemma build_perm [LinearOrder α] (vs : List α) :
    List.Perm (inVals (buildBST vs)) vs := by
  simpa [inVals] using build_fold_perm vs BTree.leaf

lemma invariant_node [LinearOrder α] {l : BTree α} {x : α} {r : BTree α} :
    invariant (BTree.node l x r) = true ↔
      (∀ y ∈ inVals l, y ≤ x) ∧ (∀ y ∈ inVals r, x ≤ y)
        ∧ invariant l = true ∧ invariant r = true := by
  simp [invariant, List.all_eq_true, Bool.and_eq_true, and_assoc]

lemma insertT_invariant [LinearOrder α] (t : BTree α) (v : α)
    (h : invariant t = true) : invariant (insertT t v) = true := by
  induction t with
  | leaf => simp [insertT, invariant, inVals]
  | node l x r ihl ihr =>
    rcases invariant_node.1 h with ⟨hle, hge, hl, hr⟩
    by_cases hv : v < x
    · simp only [insertT, if_pos hv]
      refine invariant_node.2 ⟨?_, hge, ihl hl, hr⟩
      intro y hy
      have hy2 : y ∈ v :: inVals l := (insertT_perm l v).mem_iff.1 hy
      rcases List.mem_cons.1 hy2 with rfl | hy3
      · exact le_of_lt hv
      · exact hle y hy3
    · simp only [insertT, if_neg hv]
      refine invariant_node.2 ⟨hle, ?_, hl, ihr hr⟩
      intro y hy
      have hy2 : y ∈ v :: inVals r := (insertT_perm r v).mem_iff.1 hy
      rcases List.mem_cons.1 hy2 with rfl | hy3
      · exact le_of_not_lt hv
      · exact hge y hy3

lemma invariant_sorted [LinearOrder α] (t : BTree α) (h : invariant t = true) :
    List.Sorted (fun a b => a ≤ b) (inVals t) := by
  induction t with
  | leaf => simp [inVals]
  | node l x r ihl ihr =>
    rcases invariant_node.1 h with ⟨hle, hge, hl, hr⟩
    rw [inVals]
    refine List.pairwise_append.2 ⟨ihl hl, List.pairwise_cons.2 ⟨?_, ihr hr⟩, ?_⟩
    · intro b hb; exact hge b hb
    · intro a ha b hb
      rcases List.mem_cons.1 hb with rfl | hb2
      · exact hle a ha
      · exact le_trans (hle a ha) (hge b hb2)

lemma build_invariant [LinearOrder α] (vs : List α) :
    invariant (buildBST vs) = true := by
  have h : ∀ (ws : List α) (t : BTree α), invariant t = true →
      invariant (ws.foldl insertT t) = true := by
    intro ws
    induction ws with
    | nil => intro t ht; simpa using ht
    | cons w ws ih => intro t ht; exact ih _ (insertT_invariant t w ht)
  exact h vs BTree.leaf rfl

lemma insertT_count [LinearOrder α] (t : BTree α) (v : α) :
    countNodes (insertT t v) = countNodes t + 1 := by
  induction t with
  | leaf => rfl
  | node l x r ihl ihr =>
    by_cases hv : v < x
    · simp only [insertT, if_pos hv, countNodes, ihl]; omega
    · simp only [insertT, if_neg hv, countNodes, ihr]; omega

lemma build_count [LinearOrder α] (vs : List α) :
    countNodes (buildBST vs) = vs.length := by
  have h : ∀ (ws : List α) (t : BTree α),
      countNodes (ws.foldl insertT t) = countNodes t + ws.length := by
    intro ws
    induction ws with
    | nil => intro t; simp
    | cons w ws ih =>
      intro t
      simp only [List.foldl_cons, List.length_cons, ih, insertT_count]
      omega
  simpa [buildBST, countNodes] using h vs BTree.leaf

/-! ## Delete: invariant preservation and the removed multiset -/

lemma attachLeft_vals (b a : BTree α) (hb : b ≠ BTree.leaf) :
    inVals (attachLeft b a) = inVals a ++ inVals b := by
  induction b with
  | leaf => exact absurd rfl hb
  | node bl bx br ihl ihr =>
    cases bl with
    | leaf => simp [attachLeft, inVals]
    | node cll clx clr =>
      simp [attachLeft, inVals, ihl (by simp), List.append_assoc]

lemma attachLeft_invariant [LinearOrder α] :
    ∀ b : BTree α, invariant b = true → ∀ a : BTree α, invariant a = true →
      (∀ u ∈ inVals a, ∀ w ∈ inVals b, u ≤ w) →
      invariant (attachLeft b a) = true := by
  intro b
  induction b with
  | leaf => intro _ a _ _; simp [attachLeft, invariant]
  | node bl bx br ihl ihr =>
    intro hbi a hai hab
    rcases invariant_node.1 hbi with ⟨hble, hbge, hbl, hbr⟩
    cases bl with
    | leaf =>
      simp only [attachLeft]
      refine invariant_node.2 ⟨?_, hbge, hai, hbr⟩
      intro y hy
      exact hab y hy bx (by simp [inVals])
    | node cll clx clr =>
      simp only [attachLeft]
      refine invariant_node.2 ⟨?_, hbge, ?_, hbr⟩
      · intro y hy
        rw [attachLeft_vals _ _ (by simp)] at hy
        rcases List.mem_append.1 hy with ha | hblm
        · exact hab y ha bx (by simp [inVals])
        · exact hble y hblm
      · refine ihl hbl a hai ?_
        intro u hu w hw
        exact hab u hu w (List.mem_append_left _ hw)

lemma delete_spec [LinearOrder α] :
    ∀ (p : List Dir) (t : BTree α) (l : BTree α) (x : α) (r : BTree α),
      invariant t = true → subAt t p = BTree.node l x r →
      invariant (deleteAt t p) = true
        ∧ List.Perm (x :: inVals (deleteAt t p)) (inVals t) := by
  intro p
  induction p with
  | nil =>
    intro t l x r hinv hsub
    rw [subAt_nil] at hsub
    subst hsub
    have hdel : deleteAt (BTree.node l x r) []
        = delRoot (BTree.node l x r) := by
      simp [deleteAt, replaceAt, subAt_nil]
    rw [hdel]
    rcases invariant_node.1 hinv with ⟨hle, hge, hl, hr⟩
    cases l with
    | leaf =>
      cases r with
      | leaf => exact ⟨rfl, by simp [delRoot, inVals]⟩
      | node rl rx rr =>
        refine ⟨by simpa [delRoot] using hr, ?_⟩
        simp [delRoot, inVals]
    | node ll lx lr =>
      cases r with
      | leaf =>
        refine ⟨by simpa [delRoot] using hl, ?_⟩
        simp only [delRoot, inVals, List.append_nil]
        exact (List.perm_append_singleton x _).symm
      | node rl rx rr =>
        constructor
        · refine attachLeft_invariant _ hr _ hl ?_
          intro u hu w hw
          exact le_trans (hle u hu) (hge w hw)
        · rw [delRoot, attachLeft_vals _ _ (by simp)]
          exact List.perm_middle.symm
  | cons d p ih =>
    intro t l x r hinv hsub
    cases t with
    | leaf => rw [subAt_leaf] at hsub; exact absurd hsub (by simp)
    | node tl ty tr =>
      rcases invariant_node.1 hinv with ⟨hle, hge, hl, hr⟩
      cases d with
      | L =>
        have hsub2 : subAt tl p = BTree.node l x r := hsub
        obtain ⟨hinv2, hperm⟩ := ih tl l x r hl hsub2
        have hdel : deleteAt (BTree.node tl ty tr) (Dir.L :: p)
            = BTree.node (deleteAt tl p) ty tr := by
          simp [deleteAt, replaceAt, subAt]
        rw [hdel]
        constructor
        · refine invariant_node.2 ⟨?_, hge, hinv2, hr⟩
          intro y hy
          have hy2 : y ∈ inVals tl :=
            hperm.mem_iff.1 (List.mem_cons_of_mem x hy)
          exact hle y hy2
        · simp only [inVals]
          exact hperm.append_right _
      | R =>
        have hsub2 : subAt tr p = BTree.node l x r := hsub
        obtain ⟨hinv2, hperm⟩ := ih tr l x r hr hsub2
        have hdel : deleteAt (BTree.node tl ty tr) (Dir.R :: p)
            = BTree.node tl ty (deleteAt tr p) := by
          simp [deleteAt, replaceAt, subAt]
        rw [hdel]
        constructor
        · refine invariant_node.2 ⟨hle, ?_, hl, hinv2⟩
          intro y hy
          have hy2 : y ∈ inVals tr :=
            hperm.mem_iff.1 (List.mem_cons_of_mem x hy)
          exact hge y hy2
        · simp only [inVals]
          have h1 : List.Perm (x :: (inVals tl ++ ty :: inVals (deleteAt tr p)))
              (inVals tl ++ x :: ty :: inVals (deleteAt tr p)) :=
            List.perm_middle.symm
          have h2 : List.Perm (inVals tl ++ x :: ty :: inVals (deleteAt tr p))
              (inVals tl ++ ty :: x :: inVals (deleteAt tr p)) :=
            List.Perm.append_left _ (List.Perm.swap ty x _)
          have h3 : List.Perm (inVals tl ++ ty :: x :: inVals (deleteAt tr p))
              (inVals tl ++ ty :: inVals tr) :=
            List.Perm.append_left _ (hperm.cons ty)
          exact (h1.trans h2).trans h3

/-! ## Insert: the walk of the returned cursor path -/

lemma insertPath_vacant [LinearOrder α] (t : BTree α) (v : α) :
    subAt t (insertPath t v) = BTree.leaf := by
  induction t with
  | leaf => simp [insertPath, subAt_nil]
  | node l x r ihl ihr =>
    by_cases hv : v < x
    · simp [insertPath, if_pos hv, subAt, ihl]
    · simp [insertPath, if_neg hv, subAt, ihr]

lemma insertT_at_path [LinearOrder α] (t : BTree α) (v : α) :
    subAt (insertT t v) (insertPath t v)
      = BTree.node BTree.leaf v BTree.leaf := by
  induction t with
  | leaf => simp [insertPath, insertT, subAt_nil]
  | node l x r ihl ihr =>
    by_cases hv : v < x
    · simp [insertPath, insertT, if_pos hv, subAt, ihl]
    · simp [insertPath, insertT, if_neg hv, subAt, ihr]

lemma insertPath_dirs [LinearOrder α] (t : BTree α) (v : α) :
    ∀ (q : List Dir) (d : Dir) (rest : List Dir),
      insertPath t v = q ++ d :: rest →
      ∃ l x r, subAt t q = BTree.node l x r ∧ (d = Dir.L ↔ v < x) := by
  induction t with
  | leaf =>
    intro q d rest h
    rw [insertPath] at h
    exact absurd h (by simp)
  | node l x r ihl ihr =>
    intro q d rest h
    by_cases hv : v < x
    · rw [insertPath, if_pos hv] at h
      cases q with
      | nil =>
        simp only [List.nil_append] at h
        obtain ⟨hd, -⟩ := List.cons.inj h
        refine ⟨l, x, r, subAt_nil _, ?_⟩
        simp [← hd, hv]
      | cons e q2 =>
        simp only [List.cons_append] at h
        obtain ⟨he, h2⟩ := List.cons.inj h
        obtain ⟨l2, x2, r2, hs, hiff⟩ := ihl q2 d rest h2
        refine ⟨l2, x2, r2, ?_, hiff⟩
        rw [← he]
        simpa [subAt] using hs
    · rw [insertPath, if_neg hv] at h
      cases q with
      | nil =>
        simp only [List.nil_append] at h
        obtain ⟨hd, -⟩ := List.cons.inj h
        refine ⟨l, x, r, subAt_nil _, ?_⟩
        simp [← hd, hv]
      | cons e q2 =>
        simp only [List.cons_append] at h
        obtain ⟨he, h2⟩ := List.cons.inj h
        obtain ⟨l2, x2, r2, hs, hiff⟩ := ihr q2 d rest h2
        refine ⟨l2, x2, r2, ?_, hiff⟩
        rw [← he]
        simpa [subAt] using hs

/-! ## Concrete trees used by the claims -/

/-- The example tree of the specification and the repository's tests. -/
def t7 : BTree Nat := buildBST [4, 2, 6, 1, 3, 5, 7]

/-- A single-node tree. -/
def t1n : BTree Nat := buildBST [1]

/-- A root with only a right child. -/
def t23 : BTree Nat := buildBST [2, 3]

/-- A tree whose rightmost node is not the pre-order-last node. -/
def t253 : BTree Nat := buildBST [2, 5, 3]

/-- A tree whose root has two children (for the two-children delete). -/
def tC6 : BTree Nat := buildBST [2, 1, 4, 3]

/-! ## The claims -/

/-- C1: for every sequence of values inserted via `insert` into an initially
empty BST, iterating with the in-order cursor from `begin()` to `end()`
(reached after exactly `size` steps) visits exactly the inserted multiset of
values, in non-decreasing order under the comparator. -/
theorem c1_inorder_traversal {α : Type} [LinearOrder α] (vs : List α) :
    List.Perm
        (visit addIn (buildBST vs) (countNodes (buildBST vs)) (beginIn (buildBST vs))) vs
      ∧ List.Sorted (fun a b => a ≤ b)
          (visit addIn (buildBST vs) (countNodes (buildBST vs)) (beginIn (buildBST vs)))
      ∧ stepNf addIn (buildBST vs) (countNodes (buildBST vs)) (beginIn (buildBST vs))
          = endPos := by
  obtain ⟨hv, hs⟩ := inorder_iteration (buildBST vs)
  refine ⟨?_, ?_, hs⟩
  · rw [hv]; exact build_perm vs
  · rw [hv]; exact invariant_sorted _ (build_invariant vs)

/-- C2: after inserting 4,2,6,1,3,5,7 into an empty BST, full forward
iteration yields 1 2 3 4 5 6 7 in-order, 4 2 1 3 6 5 7 pre-order and
1 3 2 5 7 6 4 post-order, each reaching `end()` after `size` steps. -/
theorem c2_example_traversals :
    visit addIn t7 7 (beginIn t7) = [1, 2, 3, 4, 5, 6, 7]
      ∧ visit addPre t7 7 (beginPre t7) = [4, 2, 1, 3, 6, 5, 7]
      ∧ visit addPost t7 7 (beginPost t7) = [1, 3, 2, 5, 7, 6, 4]
      ∧ countNodes t7 = 7
      ∧ stepNf addIn t7 7 (beginIn t7) = endPos
      ∧ stepNf addPre t7 7 (beginPre t7) = endPos
      ∧ stepNf addPost t7 7 (beginPost t7) = endPos := by
  decide

/-- C3 fails as stated: in the tree built from 2,5,3 the node holding 3 (at
cursor path `[L, R]`) is dereferenceable and is neither the first pre-order
position (the root) nor the past-the-end position, yet stepping the
pre-order cursor forward and then backward does not return to it (forward
reaches the sentinel, backward from there lands on the rightmost node 5). -/
theorem c3_roundtrip_cex :
    focusAt t253 [Dir.L, Dir.R] = BTree.node BTree.leaf 3 BTree.leaf
      ∧ Pos.node [Dir.L, Dir.R] ≠ beginPre t253
      ∧ Pos.node [Dir.L, Dir.R] ≠ endPos
      ∧ subPre t253 (addPre t253 (Pos.node [Dir.L, Dir.R]))
          ≠ Pos.node [Dir.L, Dir.R] := by
  decide

/-- C3 amended: for the in-order cursor the round trips do hold — stepping
forward then backward from any dereferenceable node returns to it, and
stepping backward then forward from any dereferenceable node other than
`begin(Inorder)` returns to it.  (For the pre-order and post-order cursors
the round trip fails at some non-boundary positions.) -/
theorem c3_roundtrip_amended {α : Type} :
    (∀ (t : BTree α) (rp : List Dir) (l : BTree α) (x : α) (r : BTree α),
        focusAt t rp = BTree.node l x r →
        subIn t (addIn t (Pos.node rp)) = Pos.node rp)
      ∧ ∀ (t : BTree α) (rp : List Dir) (l : BTree α) (x : α) (r : BTree α),
          focusAt t rp = BTree.node l x r → Pos.node rp ≠ beginIn t →
          addIn t (subIn t (Pos.node rp)) = Pos.node rp :=
  ⟨fun t rp l x r h => inorder_fwd_roundtrip t rp l x r h,
   fun t rp l x r h hb => inorder_bwd_roundtrip t rp l x r h hb⟩

/-- Witness for the amended C3 at the example tree: both round trips at
concrete positions. -/
theorem c3_roundtrip_witness :
    subIn t7 (addIn t7 (Pos.node [Dir.L])) = Pos.node [Dir.L]
      ∧ addIn t7 (subIn t7 (Pos.node [Dir.R])) = Pos.node [Dir.R] :=
  ⟨(@c3_roundtrip_amended Nat).1 t7 [Dir.L] _ 2 _ rfl,
   (@c3_roundtrip_amended Nat).2 t7 [Dir.R] _ 6 _ rfl (by decide)⟩

/-- C4: on the empty tree `begin(Inorder)` and `begin(Postorder)` equal the
sentinel `end()` cursor, but `begin(Preorder)` is `Iterator(root_->left_)`,
the null cursor, which compares unequal to `end()`. -/
theorem c4_empty_begin_end_eval :
    beginIn (BTree.leaf : BTree Nat) = endPos
      ∧ beginPost (BTree.leaf : BTree Nat) = endPos
      ∧ beginPre (BTree.leaf : BTree Nat) = Pos.nil
      ∧ beginPre (BTree.leaf : BTree Nat) ≠ endPos := by
  decide

/-- C5: `swap` exchanges only the `root_` pointers, not the `size_`
members.  Swapping an empty tree with a one-element tree leaves the first
tree holding one data node while its `size_` is still 0 (and the other
holding none with `size_` 1). -/
theorem c5_swap_size_eval :
    countNodes (swapBST ((BTree.leaf, 0) : BTree Nat × Nat)
        (insertState (BTree.leaf, 0) 1)).1.1 = 1
      ∧ (swapBST ((BTree.leaf, 0) : BTree Nat × Nat)
          (insertState (BTree.leaf, 0) 1)).1.2 = 0
      ∧ countNodes (swapBST ((BTree.leaf, 0) : BTree Nat × Nat)
          (insertState (BTree.leaf, 0) 1)).2.1 = 0
      ∧ (swapBST ((BTree.leaf, 0) : BTree Nat × Nat)
          (insertState (BTree.leaf, 0) 1)).2.2 = 1 := by
  decide

/-- C6: the ordering invariant (left subtree `≤` node, right subtree `≥`
node) is preserved by every insert and by every delete — including the
two-children case, which splices the right subtree into the parent slot and
attaches the left subtree under the in-order successor — and after a delete
the tree holds exactly the original multiset minus the deleted element. -/
theorem c6_invariant_preservation {α : Type} [LinearOrder α] :
    (∀ (t : BTree α) (v : α), invariant t = true → invariant (insertT t v) = true)
      ∧ ∀ (t : BTree α) (p : List Dir) (l : BTree α) (x : α) (r : BTree α),
          invariant t = true → subAt t p = BTree.node l x r →
          invariant (deleteAt t p) = true
            ∧ (inVals (deleteAt t p) : Multiset α)
              = (inVals t : Multiset α).erase x := by
  constructor
  · exact fun t v h => insertT_invariant t v h
  · intro t p l x r hinv hsub
    obtain ⟨h1, h2⟩ := delete_spec p t l x r hinv hsub
    refine ⟨h1, ?_⟩
    have hcoe : ((x :: inVals (deleteAt t p) : List α) : Multiset α)
        = (inVals t : Multiset α) := Multiset.coe_eq_coe.2 h2
    rw [← Multiset.cons_coe] at hcoe
    rw [← hcoe, Multiset.erase_cons_head]

/-- Witness for C6: inserting into and deleting the two-children root of a
concrete invariant-satisfying tree. -/
theorem c6_invariant_witness :
    invariant (insertT tC6 5) = true
      ∧ invariant (deleteAt tC6 []) = true
        ∧ (inVals (deleteAt tC6 []) : Multiset Nat)
          = (inVals tC6 : Multiset Nat).erase 2 :=
  ⟨c6_invariant_preservation.1 tC6 5 (by decide),
   c6_invariant_preservation.2 tC6 [] _ 2 _ (by decide) rfl⟩

/-- C7 fails as stated: on the non-empty single-node tree, stepping the
pre-order `begin()` backward once lands exactly on `end()`; and on the tree
built from 2,3 (size 2) stepping the pre-order cursor forward twice from
`begin()` does not reach `end()` (the step from the root skips the right
subtree and the subsequent step from the sentinel re-enters the tree). -/
theorem c7_bounds_cex :
    t1n ≠ BTree.leaf
      ∧ subPre t1n (beginPre t1n) = endPos
      ∧ countNodes t23 = 2
      ∧ stepNf addPre t23 2 (beginPre t23) ≠ endPos := by
  decide

/-- C7 amended: for the in-order cursor, `begin()` stepped backward on the
empty tree equals `end()`, and for every tree stepping forward from
`begin(Inorder)` exactly `size` times reaches `end(Inorder)`. -/
theorem c7_bounds_amended {α : Type} :
    subIn (BTree.leaf : BTree α) (beginIn (BTree.leaf : BTree α)) = endPos
      ∧ ∀ t : BTree α, stepNf addIn t (countNodes t) (beginIn t) = endPos := by
  refine ⟨rfl, ?_⟩
  intro t
  exact (inorder_iteration t).2

/-- C8 fails on the code: in the tree built from 2,3 the value 3 is stored,
yet `find(3, Preorder())` scans `2` and then reaches `end()` because the
pre-order step from the left-child-less root skips its right subtree; the
in-order scan does find the node holding 3. -/
theorem c8_find_eval :
    (3 : Nat) ∈ inVals t23
      ∧ findLoop addPre t23 3 4 (beginPre t23) = endPos
      ∧ findLoop addIn t23 3 4 (beginIn t23) = Pos.node [Dir.R]
      ∧ focusAt t23 [Dir.R] = BTree.node BTree.leaf 3 BTree.leaf := by
  decide

/-- C9: `insert(value)` attaches the new node as a leaf at a previously
empty slot, increments the node count by one, returns the success flag
`true`, and the walk to that slot descends left at a node exactly when the
value is strictly less than that node's value (so equal values go right). -/
theorem c9_insert_spec {α : Type} [LinearOrder α] (t : BTree α) (v : α) :
    (insertPair t v).2.2 = true
      ∧ subAt t (insertPath t v) = BTree.leaf
      ∧ subAt (insertT t v) (insertPath t v) = BTree.node BTree.leaf v BTree.leaf
      ∧ countNodes (insertT t v) = countNodes t + 1
      ∧ ∀ (q : List Dir) (d : Dir) (rest : List Dir),
          insertPath t v = q ++ d :: rest →
          ∃ l x r, subAt t q = BTree.node l x r ∧ (d = Dir.L ↔ v < x) :=
  ⟨rfl, insertPath_vacant t v, insertT_at_path t v, insertT_count t v,
   insertPath_dirs t v⟩

/-- Witness for C9: inserting 8 into the example tree. -/
theorem c9_insert_witness :
    (insertPair t7 8).2.2 = true
      ∧ subAt t7 (insertPath t7 8) = BTree.leaf
      ∧ subAt (insertT t7 8) (insertPath t7 8) = BTree.node BTree.leaf 8 BTree.leaf
      ∧ countNodes (insertT t7 8) = countNodes t7 + 1
      ∧ ∃ l x r, subAt t7 [Dir.R] = BTree.node l x r
          ∧ (Dir.R = Dir.L ↔ (8 : Nat) < x) := by
  obtain ⟨h1, h2, h3, h4, h5⟩ := c9_insert_spec t7 8
  exact ⟨h1, h2, h3, h4, h5 [Dir.R] Dir.R [Dir.R] rfl⟩

/-- C10: `erase` of a cursor equal to `end()` — the sentinel, for every
traversal order and every tree, including the empty one — returns that same
cursor and leaves the tree and the size counter unchanged. -/
theorem c10_erase_end_noop {α : Type} (f : BTree α → Pos → Pos)
    (t : BTree α) (sz : Nat) :
    eraseIt f t sz endPos = (t, sz, endPos) := by
  simp [eraseIt, endPos]

end BSTModel
